import Mathlib

/-!
Verification of the QFA repository sources `src/utils.py` (structured-covariance
linear algebra) and `src/model.py` (Adam optimizer with learning-rate scheduling).

Modelling conventions:
* `torch.float32` tensors are modelled over the exact reals `ℝ`; a shape-`(Npix,)`
  vector is a function `n → ℝ` over the row index type, a shape-`(Npix, Nh)`
  tensor is `Matrix n k ℝ`.
* `torch.linalg.inv` is Mathlib's matrix inverse, `torch.linalg.det` the
  determinant, `torch.log` is `Real.log`, `torch.sqrt` is `Real.sqrt`.
* the `device` argument of the Python functions only chooses where tensors are
  allocated (the spec calls it an opaque token passed through unchanged); it has
  no numeric effect and is dropped from the embedding.
* `@` in Python associates to the left, exactly as `*` does in Lean.
-/

namespace QFA

open Matrix

variable {n k : Type*} [Fintype n] [DecidableEq n] [Fintype k] [DecidableEq k]

/-- Embedding of `MatrixInverse(M, D, device)` from `src/utils.py` (rows of `M`
are indexed by `n`, the `Npix` axis; columns by `k`, the `Nh` axis):
`diagD = torch.diag(1./D)`, `I = torch.eye(Nh)`, and the returned value is
`diagD - diagD@M@torch.linalg.inv(I+M.T@diagD@M)@M.T@diagD`. -/
noncomputable def MatrixInverse (M : Matrix n k ℝ) (D : n → ℝ) : Matrix n n ℝ :=
  let diagD : Matrix n n ℝ := Matrix.diagonal fun i => (D i)⁻¹
  diagD - diagD * M * (1 + Mᵀ * diagD * M)⁻¹ * Mᵀ * diagD

/-- Embedding of `MatrixLogDet(M, D, device)` from `src/utils.py`: the returned
value is `torch.sum(torch.log(D)) + torch.log(torch.linalg.det(I+M.T@diagD@M))`. -/
noncomputable def MatrixLogDet (M : Matrix n k ℝ) (D : n → ℝ) : ℝ :=
  let diagD : Matrix n n ℝ := Matrix.diagonal fun i => (D i)⁻¹
  (∑ i, Real.log (D i)) + Real.log (1 + Mᵀ * diagD * M).det

lemma MatrixInverse_def (M : Matrix n k ℝ) (D : n → ℝ) :
    MatrixInverse M D =
      (Matrix.diagonal fun i => (D i)⁻¹) -
        (Matrix.diagonal fun i => (D i)⁻¹) * M *
          (1 + Mᵀ * (Matrix.diagonal fun i => (D i)⁻¹) * M)⁻¹ * Mᵀ *
            (Matrix.diagonal fun i => (D i)⁻¹) := rfl

lemma MatrixLogDet_def (M : Matrix n k ℝ) (D : n → ℝ) :
    MatrixLogDet M D =
      (∑ i, Real.log (D i)) +
        Real.log (1 + Mᵀ * (Matrix.diagonal fun i => (D i)⁻¹) * M).det := rfl

/-- The inner `Nh × Nh` matrix `I + Mᵀ·Dinv·M` is positive definite whenever
every entry of `D` is strictly positive. -/
lemma inner_posDef (M : Matrix n k ℝ) {D : n → ℝ} (hD : ∀ i, 0 < D i) :
    (1 + Mᵀ * (Matrix.diagonal fun i => (D i)⁻¹) * M).PosDef := by
  have hdiag : (Matrix.diagonal fun i => (D i)⁻¹ : Matrix n n ℝ).PosSemidef :=
    Matrix.posSemidef_diagonal_iff.mpr fun i => (inv_pos.mpr (hD i)).le
  have hpsd : (Mᵀ * (Matrix.diagonal fun i => (D i)⁻¹) * M).PosSemidef := by
    have hc := hdiag.conjTranspose_mul_mul_same M
    rwa [Matrix.conjTranspose_eq_transpose_of_trivial] at hc
  exact Matrix.PosDef.add_posSemidef Matrix.PosDef.one hpsd

/-- The determinant of the inner `Nh × Nh` matrix is strictly positive. -/
lemma inner_det_pos (M : Matrix n k ℝ) {D : n → ℝ} (hD : ∀ i, 0 < D i) :
    0 < (1 + Mᵀ * (Matrix.diagonal fun i => (D i)⁻¹) * M).det :=
  (inner_posDef M hD).det_pos

lemma diaginv_mul_diag {D : n → ℝ} (hD : ∀ i, D i ≠ 0) :
    (Matrix.diagonal fun i => (D i)⁻¹) * Matrix.diagonal D = (1 : Matrix n n ℝ) := by
  rw [Matrix.diagonal_mul_diagonal]
  have hfun : (fun i => (D i)⁻¹ * D i) = fun _ : n => (1 : ℝ) := by
    funext i
    exact inv_mul_cancel₀ (hD i)
  rw [hfun, Matrix.diagonal_one]

lemma diag_mul_diaginv {D : n → ℝ} (hD : ∀ i, D i ≠ 0) :
    Matrix.diagonal D * (Matrix.diagonal fun i => (D i)⁻¹) = (1 : Matrix n n ℝ) := by
  rw [Matrix.diagonal_mul_diagonal]
  have hfun : (fun i => D i * (D i)⁻¹) = fun _ : n => (1 : ℝ) := by
    funext i
    exact mul_inv_cancel₀ (hD i)
  rw [hfun, Matrix.diagonal_one]

/-- C1: for every matrix `M` of shape `(Npix, Nh)` and every strictly positive
vector `D`, `MatrixInverse(M, D, device)` returns
`Dinv − Dinv·M·(I + Mᵗ·Dinv·M)⁻¹·Mᵗ·Dinv` with `Dinv = diag(1/D)`, and this is
the exact inverse of `Σ = M·Mᵗ + diag(D)`: the product
`MatrixInverse(M, D, device) @ (M·Mᵗ + diag(D))` is the identity (exactly, in
the real-number model of float arithmetic). -/
theorem MatrixInverse_is_inverse (M : Matrix n k ℝ) (D : n → ℝ) (hD : ∀ i, 0 < D i) :
    MatrixInverse M D =
      (Matrix.diagonal fun i => (D i)⁻¹) -
        (Matrix.diagonal fun i => (D i)⁻¹) * M *
          (1 + Mᵀ * (Matrix.diagonal fun i => (D i)⁻¹) * M)⁻¹ * Mᵀ *
            (Matrix.diagonal fun i => (D i)⁻¹) ∧
      MatrixInverse M D * (M * Mᵀ + Matrix.diagonal D) = 1 := by
  refine ⟨MatrixInverse_def M D, ?_⟩
  have hdet : IsUnit (1 + Mᵀ * (Matrix.diagonal fun i => (D i)⁻¹) * M).det :=
    (inner_det_pos M hD).ne'.isUnit
  have hDD : (Matrix.diagonal fun i => (D i)⁻¹) * Matrix.diagonal D = (1 : Matrix n n ℝ) :=
    diaginv_mul_diag fun i => (hD i).ne'
  rw [MatrixInverse_def]
  set d := (Matrix.diagonal fun i => (D i)⁻¹ : Matrix n n ℝ) with hd
  set DD := (Matrix.diagonal D : Matrix n n ℝ) with hDDdef
  set N := (1 + Mᵀ * d * M : Matrix k k ℝ) with hNdef
  have hP : N⁻¹ * N = 1 := Matrix.nonsing_inv_mul N hdet
  have hT : Mᵀ * d * M = N - 1 := by rw [hNdef, add_sub_cancel_left]
  have e1 : d * M * N⁻¹ * Mᵀ * d * DD = d * M * N⁻¹ * Mᵀ := by
    simp only [Matrix.mul_assoc]
    rw [hDD, Matrix.mul_one]
  have e2 : d * M * N⁻¹ * Mᵀ * d * (M * Mᵀ) = d * (M * Mᵀ) - d * M * N⁻¹ * Mᵀ := by
    have h1 : d * M * N⁻¹ * Mᵀ * d * (M * Mᵀ) = d * M * (N⁻¹ * (Mᵀ * d * M)) * Mᵀ := by
      simp only [Matrix.mul_assoc]
    rw [h1, hT, Matrix.mul_sub, hP, Matrix.mul_one, Matrix.mul_sub, Matrix.sub_mul]
    simp only [Matrix.mul_assoc, Matrix.mul_one]
  calc (d - d * M * N⁻¹ * Mᵀ * d) * (M * Mᵀ + DD)
      = d * (M * Mᵀ) + d * DD -
        (d * M * N⁻¹ * Mᵀ * d * (M * Mᵀ) + d * M * N⁻¹ * Mᵀ * d * DD) := by
        rw [Matrix.sub_mul, Matrix.mul_add, Matrix.mul_add]
    _ = d * (M * Mᵀ) + 1 -
        ((d * (M * Mᵀ) - d * M * N⁻¹ * Mᵀ) + d * M * N⁻¹ * Mᵀ) := by
        rw [e1, e2, hDD]
    _ = 1 := by abel

/-- C1 witness: the theorem instantiated at `Npix = Nh = 1`, `M = 0`, `D = 1`. -/
theorem MatrixInverse_is_inverse_witness :
    (∀ i : Fin 1, 0 < (fun _ : Fin 1 => (1 : ℝ)) i) ∧
      ((0 : Matrix (Fin 1) (Fin 1) ℝ) = 0 ∧
        MatrixInverse (0 : Matrix (Fin 1) (Fin 1) ℝ) (fun _ => (1 : ℝ)) *
          ((0 : Matrix (Fin 1) (Fin 1) ℝ) * (0 : Matrix (Fin 1) (Fin 1) ℝ)ᵀ +
            Matrix.diagonal fun _ => (1 : ℝ)) = 1) :=
  ⟨fun _ => one_pos,
    rfl,
    (MatrixInverse_is_inverse (0 : Matrix (Fin 1) (Fin 1) ℝ) (fun _ => (1 : ℝ))
      fun _ => one_pos).2⟩

/-- C2: `MatrixLogDet(M, D, device)` returns `Σ_p log(D_p) + log det(I + MᵗDinvM)`,
and for strictly positive `D` this equals `log det(M·Mᵗ + diag(D))` (exactly, in
the real-number model of float arithmetic; the spec's dense reference determinant
is the determinant of the materialized `Npix × Npix` matrix). -/
theorem MatrixLogDet_eq_log_det (M : Matrix n k ℝ) (D : n → ℝ) (hD : ∀ i, 0 < D i) :
    MatrixLogDet M D =
      (∑ i, Real.log (D i)) +
        Real.log (1 + Mᵀ * (Matrix.diagonal fun i => (D i)⁻¹) * M).det ∧
      MatrixLogDet M D = Real.log (M * Mᵀ + Matrix.diagonal D).det := by
  refine ⟨MatrixLogDet_def M D, ?_⟩
  have hDne : ∀ i, D i ≠ 0 := fun i => (hD i).ne'
  have hdetpos := inner_det_pos M hD
  have hsplit : M * Mᵀ + Matrix.diagonal D =
      Matrix.diagonal D * ((Matrix.diagonal fun i => (D i)⁻¹) * (M * Mᵀ) + 1) := by
    rw [Matrix.mul_add, Matrix.mul_one, ← Matrix.mul_assoc, diag_mul_diaginv hDne,
      Matrix.one_mul]
  have hcomm :
      ((Matrix.diagonal fun i => (D i)⁻¹) * (M * Mᵀ) + 1 : Matrix n n ℝ).det =
        (1 + Mᵀ * (Matrix.diagonal fun i => (D i)⁻¹) * M).det := by
    rw [← Matrix.mul_assoc, Matrix.det_mul_add_one_comm, add_comm, Matrix.mul_assoc]
  rw [MatrixLogDet_def, hsplit, Matrix.det_mul, Matrix.det_diagonal, hcomm]
  rw [Real.log_mul (Finset.prod_ne_zero_iff.mpr fun i _ => hDne i) hdetpos.ne']
  rw [Real.log_prod _ _ fun i _ => hDne i]

/-- C2 witness: the theorem instantiated at `Npix = Nh = 1`, `M = 0`, `D = 1`. -/
theorem MatrixLogDet_eq_log_det_witness :
    (∀ i : Fin 1, 0 < (fun _ : Fin 1 => (1 : ℝ)) i) ∧
      MatrixLogDet (0 : Matrix (Fin 1) (Fin 1) ℝ) (fun _ => (1 : ℝ)) =
        Real.log ((0 : Matrix (Fin 1) (Fin 1) ℝ) * (0 : Matrix (Fin 1) (Fin 1) ℝ)ᵀ +
          Matrix.diagonal fun _ => (1 : ℝ)).det :=
  ⟨fun _ => one_pos,
    (MatrixLogDet_eq_log_det (0 : Matrix (Fin 1) (Fin 1) ℝ) (fun _ => (1 : ℝ))
      fun _ => one_pos).2⟩

omit [Fintype n] [DecidableEq n] [DecidableEq k] in
/-- With an empty column index type (`Nh = 0`) any product through it vanishes. -/
lemma mul_mul_of_isEmpty [IsEmpty k] (A : Matrix n k ℝ) (B : Matrix k n ℝ) :
    A * B = 0 := by
  ext i j
  simp [Matrix.mul_apply]

/-- C8: in the degenerate case `Nh = 0` (an empty `Npix × 0` matrix `M`) with
strictly positive `D`, `MatrixInverse` returns `diag(1/D)` and `MatrixLogDet`
returns `sum(log(D))`. -/
theorem degenerate_empty_M [IsEmpty k] (M : Matrix n k ℝ) (D : n → ℝ)
    (_hD : ∀ i, 0 < D i) :
    MatrixInverse M D = (Matrix.diagonal fun i => (D i)⁻¹) ∧
      MatrixLogDet M D = ∑ i, Real.log (D i) := by
  constructor
  · rw [MatrixInverse_def]
    have hz : (Matrix.diagonal fun i => (D i)⁻¹) * M *
        (1 + Mᵀ * (Matrix.diagonal fun i => (D i)⁻¹) * M)⁻¹ * Mᵀ = 0 :=
      mul_mul_of_isEmpty _ _
    rw [hz, Matrix.zero_mul, sub_zero]
  · rw [MatrixLogDet_def, Matrix.det_isEmpty, Real.log_one, add_zero]

/-- C8 witness: the theorem instantiated at `Npix = 1`, `Nh = 0`, `D = 1`. -/
theorem degenerate_empty_M_witness :
    (∀ i : Fin 1, 0 < (fun _ : Fin 1 => (1 : ℝ)) i) ∧
      (MatrixInverse (0 : Matrix (Fin 1) (Fin 0) ℝ) (fun _ => (1 : ℝ)) =
          (Matrix.diagonal fun _ : Fin 1 => ((1 : ℝ))⁻¹) ∧
        MatrixLogDet (0 : Matrix (Fin 1) (Fin 0) ℝ) (fun _ => (1 : ℝ)) =
          ∑ _i : Fin 1, Real.log 1) :=
  ⟨fun _ => one_pos,
    degenerate_empty_M (0 : Matrix (Fin 1) (Fin 0) ℝ) (fun _ => (1 : ℝ))
      fun _ => one_pos⟩

/-!
## Adam optimizer (`src/model.py`)

Python `dict{str: torch.tensor}` objects are modelled as association lists
`List (κ × ℝ)` over a key type `κ` with decidable equality; the tensors held by
the dictionaries are modelled by their scalar entries (every tensor operation in
`Adam.update` is element-wise, so one real number per key captures the update
rule exactly).  `d[k]` is `dlookup d k`; a missing key is `none` (Python raises
`KeyError`).  A dict comprehension `{v: f(v, d[v]) for v in src}` whose body
performs lookups is `dmap?`, which returns `none` as soon as a lookup inside the
body fails — in Python the comprehension raises before the enclosing assignment
happens, so the assignment target keeps its old value.
-/

variable {κ : Type*} [DecidableEq κ]

/-- Python dict lookup `d[k]` on an association list (first binding wins, as in
a Python dict, which cannot hold duplicate keys). -/
def dlookup : List (κ × ℝ) → κ → Option ℝ
  | [], _ => none
  | (k0, x) :: rest, key => if k0 = key then some x else dlookup rest key

/-- A dict comprehension over the bindings of `d` whose body may raise
`KeyError` (modelled by `f` returning `none`). -/
def dmap? (f : κ → ℝ → Option ℝ) : List (κ × ℝ) → Option (List (κ × ℝ))
  | [] => some []
  | (k0, x) :: rest =>
    match f k0 x with
    | none => none
    | some y =>
      match dmap? f rest with
      | none => none
      | some ys => some ((k0, y) :: ys)

/-- State of the `Adam` object of `src/model.py`: the constructor arguments
(hyper-parameters and optional scheduler) plus the mutable fields `m`, `v`, `i`.
The `device` constructor argument only places the zero tensors and is dropped. -/
structure AdamState (κ : Type*) where
  learning_rate : ℝ
  b1 : ℝ
  b2 : ℝ
  eps : ℝ
  weight_decay : ℝ
  scheduler : Option (ℕ → ℝ → ℝ)
  m : List (κ × ℝ)
  v : List (κ × ℝ)
  i : ℕ

/-- `{v: torch.zeros_like(params[v]) for v in params}`: zero moments keyed like
`params`. -/
def zerosLike (params : List (κ × ℝ)) : List (κ × ℝ) :=
  params.map fun p => (p.1, 0)

/-- `Adam.__init__`: stores the hyper-parameters, builds zero `m` and `v` keyed
by `params`, and sets `i = 0`. -/
def Adam.init (learning_rate b1 b2 eps weight_decay : ℝ)
    (scheduler : Option (ℕ → ℝ → ℝ)) (params : List (κ × ℝ)) : AdamState κ :=
  ⟨learning_rate, b1, b2, eps, weight_decay, scheduler,
    zerosLike params, zerosLike params, 0⟩

/-- `Adam.scheduled_lr`: `self.scheduler(self.i, self.learning_rate)` when a
scheduler callable is configured, else `self.learning_rate`. -/
def Adam.scheduled_lr (s : AdamState κ) : ℝ :=
  match s.scheduler with
  | some f => f s.i s.learning_rate
  | none => s.learning_rate

/-- `Adam.update(params, g)`, statement by statement.  The returned pair is the
state of the object when control leaves the method (normally or by a raised
`KeyError`) together with the returned dict (`Except.error ()` for a raised
`KeyError`).  Each dict comprehension is assigned to its target only if every
lookup in its body succeeded, matching Python's evaluate-then-assign order:
`g = {v: g[v]+wd*params[v] for v in g}`,
`self.m = {v: (1-b1)*g[v]+b1*self.m[v] for v in g}`,
`self.v = {k: (1-b2)*g[k]*g[k]+b2*self.v[k] for k in g}`,
`mhat = {v: self.m[v]/(1-b1**(i+1)) for v in g}`,
`vhat = {k: self.v[k]/(1-b2**(i+1)) for k in g}`,
`return {v: params[v]-scheduled_lr*mhat[v]/(sqrt(vhat[v])+eps) for v in params}`. -/
noncomputable def Adam.update (s : AdamState κ) (params g : List (κ × ℝ)) :
    AdamState κ × Except Unit (List (κ × ℝ)) :=
  match dmap? (fun key gk => (dlookup params key).map fun pk =>
      gk + s.weight_decay * pk) g with
  | none => (s, Except.error ())
  | some g1 =>
    match dmap? (fun key gk => (dlookup s.m key).map fun mk =>
        (1 - s.b1) * gk + s.b1 * mk) g1 with
    | none => (s, Except.error ())
    | some m1 =>
      match dmap? (fun key gk => (dlookup s.v key).map fun vk =>
          (1 - s.b2) * gk * gk + s.b2 * vk) g1 with
      | none => ({s with m := m1}, Except.error ())
      | some v1 =>
        match dmap? (fun key _ => (dlookup m1 key).map fun mk =>
            mk / (1 - s.b1 ^ (s.i + 1))) g1 with
        | none => ({s with m := m1, v := v1}, Except.error ())
        | some mhat =>
          match dmap? (fun key _ => (dlookup v1 key).map fun vk =>
              vk / (1 - s.b2 ^ (s.i + 1))) g1 with
          | none => ({s with m := m1, v := v1}, Except.error ())
          | some vhat =>
            match dmap? (fun key pk => (dlookup mhat key).bind fun mh =>
                (dlookup vhat key).map fun vh =>
                  pk - Adam.scheduled_lr s * mh / (Real.sqrt vh + s.eps)) params with
            | none => ({s with m := m1, v := v1}, Except.error ())
            | some out => ({s with m := m1, v := v1}, Except.ok out)

/-- `Adam.reset(params)`: fresh zero moments keyed by `params` and `i = 0`;
hyper-parameters are kept. -/
def Adam.reset (s : AdamState κ) (params : List (κ × ℝ)) : AdamState κ :=
  {s with m := zerosLike params, v := zerosLike params, i := 0}

/-- `Adam.step()`: `self.i += 1`. -/
def Adam.step (s : AdamState κ) : AdamState κ :=
  {s with i := s.i + 1}

/-- `step_scheduler(alpha, step)` from `src/model.py`: the returned closure is
`lambda i, lr: lr*alpha**((i+1)//step)` (integer floor division). -/
def step_scheduler (alpha : ℝ) (step : ℕ) : ℕ → ℝ → ℝ :=
  fun i lr => lr * alpha ^ ((i + 1) / step)

/-- C5 counterexample: with `alpha = 0.5` and `step = 10` the code computes
`scheduler(9, lr) = lr * 0.5**((9+1)//10) = lr * 0.5`, not `lr` as the claim
states. -/
theorem step_scheduler_at_nine_ne : step_scheduler 0.5 10 9 1 ≠ 1 := by
  norm_num [step_scheduler]

/-- C5 amended: for the staircase scheduler built by `step_scheduler` with
`alpha = 0.5`, `step = 10`, the rule `lr * alpha^((i+1)//step)` gives
`scheduler(9, lr) = lr*0.5`, `scheduler(10, lr) = lr*0.5`,
`scheduler(19, lr) = lr*0.25`, `scheduler(20, lr) = lr*0.25`: the decay steps
happen at `i = 9, 19, ...`, one iteration earlier than the claim states. -/
theorem step_scheduler_staircase (lr : ℝ) :
    step_scheduler 0.5 10 9 lr = lr * 0.5 ∧
      step_scheduler 0.5 10 10 lr = lr * 0.5 ∧
        step_scheduler 0.5 10 19 lr = lr * 0.25 ∧
          step_scheduler 0.5 10 20 lr = lr * 0.25 := by
  refine ⟨?_, ?_, ?_, ?_⟩ <;> norm_num [step_scheduler]

/-- C6: `reset(params)` rebuilds exactly the state a freshly constructed
instance with the same hyper-parameters has (zero moments shaped per `params`,
`i = 0`), so `reset` followed by `update` returns exactly what the very first
`update` on the fresh instance returns. -/
theorem reset_restores_fresh (s : AdamState κ) (params g : List (κ × ℝ)) :
    Adam.reset s params =
      Adam.init s.learning_rate s.b1 s.b2 s.eps s.weight_decay s.scheduler params ∧
      Adam.update (Adam.reset s params) params g =
        Adam.update
          (Adam.init s.learning_rate s.b1 s.b2 s.eps s.weight_decay s.scheduler params)
          params g :=
  ⟨rfl, rfl⟩

/-- Whatever path `Adam.update` takes (normal return or `KeyError`), the state
it leaves behind differs from the incoming state at most in `m` and `v`. -/
lemma update_fst_eq (s : AdamState κ) (params g : List (κ × ℝ)) :
    ∃ mv : List (κ × ℝ) × List (κ × ℝ),
      (Adam.update s params g).1 = {s with m := mv.1, v := mv.2} := by
  unfold Adam.update
  repeat' split
  all_goals exact ⟨(_, _), rfl⟩

/-- C7: `update` changes only the moment state `m`, `v`: the iteration counter
`i` and every hyper-parameter (and the scheduler) are untouched; `step()`
increments `i` by 1 and changes nothing else.  (In the embedding `params` is
passed by value, so the caller's mapping is never mutated and the returned
mapping is a fresh list.) -/
theorem update_and_step_frame (s : AdamState κ) (params g : List (κ × ℝ)) :
    ((Adam.update s params g).1.i = s.i ∧
      (Adam.update s params g).1.learning_rate = s.learning_rate ∧
      (Adam.update s params g).1.b1 = s.b1 ∧
      (Adam.update s params g).1.b2 = s.b2 ∧
      (Adam.update s params g).1.eps = s.eps ∧
      (Adam.update s params g).1.weight_decay = s.weight_decay ∧
      (Adam.update s params g).1.scheduler = s.scheduler) ∧
    ((Adam.step s).i = s.i + 1 ∧
      (Adam.step s).m = s.m ∧
      (Adam.step s).v = s.v ∧
      (Adam.step s).learning_rate = s.learning_rate ∧
      (Adam.step s).b1 = s.b1 ∧
      (Adam.step s).b2 = s.b2 ∧
      (Adam.step s).eps = s.eps ∧
      (Adam.step s).weight_decay = s.weight_decay ∧
      (Adam.step s).scheduler = s.scheduler) := by
  obtain ⟨mv, hmv⟩ := update_fst_eq s params g
  refine ⟨⟨?_, ?_, ?_, ?_, ?_, ?_, ?_⟩, ?_, ?_, ?_, ?_, ?_, ?_, ?_, ?_, ?_⟩ <;>
    simp [hmv, Adam.step]

lemma dlookup_isSome_iff (d : List (κ × ℝ)) (key : κ) :
    (dlookup d key).isSome ↔ key ∈ d.map Prod.fst := by
  induction d with
  | nil => simp [dlookup]
  | cons p tl ih =>
    obtain ⟨k0, x⟩ := p
    by_cases hk : k0 = key
    · subst hk
      simp [dlookup]
    · have hk' : ¬key = k0 := fun hh => hk hh.symm
      simp [dlookup, hk, hk', ih]

omit [DecidableEq κ] in
lemma dmap?_total {f : κ → ℝ → Option ℝ} (d : List (κ × ℝ))
    (hall : ∀ p ∈ d, (f p.1 p.2).isSome) : ∃ d', dmap? f d = some d' := by
  induction d with
  | nil => exact ⟨[], rfl⟩
  | cons p tl ih =>
    obtain ⟨k0, x⟩ := p
    obtain ⟨y, hy⟩ := Option.isSome_iff_exists.mp (hall (k0, x) (List.mem_cons_self _ _))
    obtain ⟨ys, hys⟩ := ih fun q hq => hall q (List.mem_cons_of_mem _ hq)
    exact ⟨(k0, y) :: ys, by simp [dmap?, hy, hys]⟩

omit [DecidableEq κ] in
lemma dmap?_keys {f : κ → ℝ → Option ℝ} :
    ∀ {d d' : List (κ × ℝ)}, dmap? f d = some d' →
      d'.map Prod.fst = d.map Prod.fst := by
  intro d
  induction d with
  | nil =>
    intro d' hd
    simp only [dmap?, Option.some.injEq] at hd
    subst hd
    rfl
  | cons p tl ih =>
    obtain ⟨k0, x⟩ := p
    intro d' hd
    cases hfx : f k0 x with
    | none => simp [dmap?, hfx] at hd
    | some y =>
      cases hys : dmap? f tl with
      | none => simp [dmap?, hfx, hys] at hd
      | some ys =>
        simp only [dmap?, hfx, hys, Option.some.injEq] at hd
        subst hd
        simp [ih hys]

lemma dlookup_dmap? {f : κ → ℝ → Option ℝ} :
    ∀ {d d' : List (κ × ℝ)}, dmap? f d = some d' →
      ∀ key, dlookup d' key = (dlookup d key).bind fun x => f key x := by
  intro d
  induction d with
  | nil =>
    intro d' hd key
    simp only [dmap?, Option.some.injEq] at hd
    subst hd
    simp [dlookup]
  | cons p tl ih =>
    obtain ⟨k0, x⟩ := p
    intro d' hd key
    cases hfx : f k0 x with
    | none => simp [dmap?, hfx] at hd
    | some y =>
      cases hys : dmap? f tl with
      | none => simp [dmap?, hfx, hys] at hd
      | some ys =>
        simp only [dmap?, hfx, hys, Option.some.injEq] at hd
        subst hd
        by_cases hk : k0 = key
        · subst hk
          simp [dlookup, hfx]
        · simp [dlookup, hk, ih hys key]

omit [DecidableEq κ] in
lemma dmap?_none {f : κ → ℝ → Option ℝ} :
    ∀ {d : List (κ × ℝ)}, (∃ p ∈ d, f p.1 p.2 = none) → dmap? f d = none := by
  intro d
  induction d with
  | nil =>
    rintro ⟨p, hp, _⟩
    simp at hp
  | cons q tl ih =>
    rintro ⟨p, hp, hfp⟩
    obtain ⟨k0, x⟩ := q
    rcases List.mem_cons.mp hp with rfl | hmem
    · simp [dmap?, hfp]
    · cases hfx : f k0 x with
      | none => simp [dmap?, hfx]
      | some y => simp [dmap?, hfx, ih ⟨p, hmem, hfp⟩]

/-- C3: when the key set of `g` agrees with the key sets of `params` and of the
construction-time moment maps `m`, `v`, `update(params, g)` succeeds and, for
every key with stored values `params[key] = pk`, `g[key] = gk`, `m[key] = mk`,
`v[key] = vk`, the returned mapping holds
`pk − lr_eff · mhat/(sqrt(vhat) + eps)` where `g' = gk + weight_decay·pk`,
`mhat = ((1−b1)·g' + b1·mk)/(1 − b1^(i+1))`,
`vhat = ((1−b2)·g'² + b2·vk)/(1 − b2^(i+1))` with `i` the pre-increment
iteration counter, and `lr_eff` is `scheduler(i, learning_rate)` when a
scheduler is configured, else `learning_rate`. -/
theorem adam_update_formula (s : AdamState κ) (params g : List (κ × ℝ))
    (hgp : ∀ key ∈ g.map Prod.fst, key ∈ params.map Prod.fst)
    (hpg : ∀ key ∈ params.map Prod.fst, key ∈ g.map Prod.fst)
    (hgm : ∀ key ∈ g.map Prod.fst, key ∈ s.m.map Prod.fst)
    (hgv : ∀ key ∈ g.map Prod.fst, key ∈ s.v.map Prod.fst)
    (key : κ) (pk gk mk vk : ℝ)
    (hpk : dlookup params key = some pk) (hgk : dlookup g key = some gk)
    (hmk : dlookup s.m key = some mk) (hvk : dlookup s.v key = some vk) :
    ∃ out, (Adam.update s params g).2 = Except.ok out ∧
      dlookup out key = some
        (pk - Adam.scheduled_lr s *
          (((1 - s.b1) * (gk + s.weight_decay * pk) + s.b1 * mk) /
              (1 - s.b1 ^ (s.i + 1))) /
          (Real.sqrt
              (((1 - s.b2) * (gk + s.weight_decay * pk) * (gk + s.weight_decay * pk) +
                  s.b2 * vk) / (1 - s.b2 ^ (s.i + 1))) + s.eps)) ∧
      (s.scheduler = none → Adam.scheduled_lr s = s.learning_rate) ∧
      (∀ f, s.scheduler = some f →
        Adam.scheduled_lr s = f s.i s.learning_rate) := by
  obtain ⟨g1, hg1⟩ :=
    dmap?_total (f := fun key gk => (dlookup params key).map fun pk =>
        gk + s.weight_decay * pk) g
      (fun p hp => by
        have hmem := hgp p.1 (List.mem_map_of_mem Prod.fst hp)
        have := (dlookup_isSome_iff params p.1).mpr hmem
        rcases Option.isSome_iff_exists.mp this with ⟨x, hx⟩
        simp [hx])
  have hg1keys : g1.map Prod.fst = g.map Prod.fst := dmap?_keys hg1
  obtain ⟨m1, hm1⟩ :=
    dmap?_total (f := fun key gk => (dlookup s.m key).map fun mk =>
        (1 - s.b1) * gk + s.b1 * mk) g1
      (fun p hp => by
        have hmem : p.1 ∈ g.map Prod.fst := by
          rw [← hg1keys]
          exact List.mem_map_of_mem Prod.fst hp
        have := (dlookup_isSome_iff s.m p.1).mpr (hgm p.1 hmem)
        rcases Option.isSome_iff_exists.mp this with ⟨x, hx⟩
        simp [hx])
  have hm1keys : m1.map Prod.fst = g1.map Prod.fst := dmap?_keys hm1
  obtain ⟨v1, hv1⟩ :=
    dmap?_total (f := fun key gk => (dlookup s.v key).map fun vk =>
        (1 - s.b2) * gk * gk + s.b2 * vk) g1
      (fun p hp => by
        have hmem : p.1 ∈ g.map Prod.fst := by
          rw [← hg1keys]
          exact List.mem_map_of_mem Prod.fst hp
        have := (dlookup_isSome_iff s.v p.1).mpr (hgv p.1 hmem)
        rcases Option.isSome_iff_exists.mp this with ⟨x, hx⟩
        simp [hx])
  have hv1keys : v1.map Prod.fst = g1.map Prod.fst := dmap?_keys hv1
  obtain ⟨mhat, hmhat⟩ :=
    dmap?_total (f := fun key _ => (dlookup m1 key).map fun mk =>
        mk / (1 - s.b1 ^ (s.i + 1))) g1
      (fun p hp => by
        have hmem : p.1 ∈ m1.map Prod.fst := by
          rw [hm1keys]
          exact List.mem_map_of_mem Prod.fst hp
        have := (dlookup_isSome_iff m1 p.1).mpr hmem
        rcases Option.isSome_iff_exists.mp this with ⟨x, hx⟩
        simp [hx])
  have hmhatkeys : mhat.map Prod.fst = g1.map Prod.fst := dmap?_keys hmhat
  obtain ⟨vhat, hvhat⟩ :=
    dmap?_total (f := fun key _ => (dlookup v1 key).map fun vk =>
        vk / (1 - s.b2 ^ (s.i + 1))) g1
      (fun p hp => by
        have hmem : p.1 ∈ v1.map Prod.fst := by
          rw [hv1keys]
          exact List.mem_map_of_mem Prod.fst hp
        have := (dlookup_isSome_iff v1 p.1).mpr hmem
        rcases Option.isSome_iff_exists.mp this with ⟨x, hx⟩
        simp [hx])
  have hvhatkeys : vhat.map Prod.fst = g1.map Prod.fst := dmap?_keys hvhat
  obtain ⟨out, hout⟩ :=
    dmap?_total (f := fun key pk => (dlookup mhat key).bind fun mh =>
        (dlookup vhat key).map fun vh =>
          pk - Adam.scheduled_lr s * mh / (Real.sqrt vh + s.eps)) params
      (fun p hp => by
        have hmemg : p.1 ∈ g.map Prod.fst :=
          hpg p.1 (List.mem_map_of_mem Prod.fst hp)
        have hmemmh : p.1 ∈ mhat.map Prod.fst := by
          rw [hmhatkeys, hg1keys]
          exact hmemg
        have hmemvh : p.1 ∈ vhat.map Prod.fst := by
          rw [hvhatkeys, hg1keys]
          exact hmemg
        rcases Option.isSome_iff_exists.mp
          ((dlookup_isSome_iff mhat p.1).mpr hmemmh) with ⟨x, hx⟩
        rcases Option.isSome_iff_exists.mp
          ((dlookup_isSome_iff vhat p.1).mpr hmemvh) with ⟨y, hy⟩
        simp [hx, hy])
  have hg1k : dlookup g1 key = some (gk + s.weight_decay * pk) := by
    rw [dlookup_dmap? hg1, hgk]
    simp [hpk]
  have hm1k : dlookup m1 key =
      some ((1 - s.b1) * (gk + s.weight_decay * pk) + s.b1 * mk) := by
    rw [dlookup_dmap? hm1, hg1k]
    simp [hmk]
  have hv1k : dlookup v1 key =
      some ((1 - s.b2) * (gk + s.weight_decay * pk) * (gk + s.weight_decay * pk) +
        s.b2 * vk) := by
    rw [dlookup_dmap? hv1, hg1k]
    simp [hvk]
  have hmhatk : dlookup mhat key =
      some (((1 - s.b1) * (gk + s.weight_decay * pk) + s.b1 * mk) /
        (1 - s.b1 ^ (s.i + 1))) := by
    rw [dlookup_dmap? hmhat, hg1k]
    simp [hm1k]
  have hvhatk : dlookup vhat key =
      some (((1 - s.b2) * (gk + s.weight_decay * pk) * (gk + s.weight_decay * pk) +
        s.b2 * vk) / (1 - s.b2 ^ (s.i + 1))) := by
    rw [dlookup_dmap? hvhat, hg1k]
    simp [hv1k]
  refine ⟨out, ?_, ?_, ?_, ?_⟩
  · simp only [Adam.update, hg1, hm1, hv1, hmhat, hvhat, hout]
  · rw [dlookup_dmap? hout, hpk]
    simp [hmhatk, hvhatk]
  · intro hs
    simp [Adam.scheduled_lr, hs]
  · intro f hf
    simp [Adam.scheduled_lr, hf]

/-- Concrete optimizer state used by witnesses: `learning_rate = 1`, `b1 = b2 = 0`,
`eps = 1`, `weight_decay = 0`, no scheduler, moments `{0: 0.0}`, `i = 0`. -/
def adamW : AdamState ℕ := ⟨1, 0, 0, 1, 0, none, [(0, 0)], [(0, 0)], 0⟩

/-- Concrete one-key dict `{0: 0.0}` used by witnesses. -/
def dictW : List (ℕ × ℝ) := [(0, 0)]

/-- C3 witness: the update formula evaluated on the one-key state `adamW` with
`params = g = {0: 0.0}`. -/
theorem adam_update_formula_witness :
    ∃ out, (Adam.update adamW dictW dictW).2 = Except.ok out ∧
      dlookup out 0 = some
        ((0 : ℝ) - Adam.scheduled_lr adamW *
          (((1 - adamW.b1) * (0 + adamW.weight_decay * 0) + adamW.b1 * 0) /
              (1 - adamW.b1 ^ (adamW.i + 1))) /
          (Real.sqrt
              (((1 - adamW.b2) * (0 + adamW.weight_decay * 0) *
                  (0 + adamW.weight_decay * 0) + adamW.b2 * 0) /
                (1 - adamW.b2 ^ (adamW.i + 1))) + adamW.eps)) ∧
      (adamW.scheduler = none → Adam.scheduled_lr adamW = adamW.learning_rate) ∧
      (∀ f, adamW.scheduler = some f →
        Adam.scheduled_lr adamW = f adamW.i adamW.learning_rate) :=
  adam_update_formula adamW dictW dictW
    (fun _ hk => hk) (fun _ hk => hk) (fun _ hk => hk) (fun _ hk => hk)
    0 0 0 0 0 rfl rfl rfl rfl

/-- C10 counterexample: when `g` contains a key absent from `params` (here
`params = {0: 1.0}`, `g = {0: 2.0, 1: 3.0}`), `update` does raise `KeyError`,
but it raises while rebuilding the weight-decayed gradient dict — before `self.m`
and `self.v` are reassigned — so the moment maps are NOT "already replaced by
maps keyed only by g's keys": `m` still is `{0: 0.0}`, keyed `[0] ≠ [0, 1]`. -/
theorem adam_update_keyerror_counterexample :
    (Adam.update (⟨1, 0, 0, 1, 0, none, [(0, 0)], [(0, 0)], 0⟩ : AdamState ℕ)
        [(0, 1)] [(0, 2), (1, 3)]).2 = Except.error () ∧
      (Adam.update (⟨1, 0, 0, 1, 0, none, [(0, 0)], [(0, 0)], 0⟩ : AdamState ℕ)
          [(0, 1)] [(0, 2), (1, 3)]).1.m = [(0, 0)] ∧
      (Adam.update (⟨1, 0, 0, 1, 0, none, [(0, 0)], [(0, 0)], 0⟩ : AdamState ℕ)
            [(0, 1)] [(0, 2), (1, 3)]).1.m.map Prod.fst ≠
        ([((0 : ℕ), (2 : ℝ)), (1, 3)]).map Prod.fst :=
  ⟨rfl, rfl, by decide⟩

/-- C10 amended: a key-set mismatch between `params` and `g` always surfaces as
a plain `KeyError` (no dedicated error type exists in the repository), but the
point at which it escapes depends on the direction of the mismatch.  If `g`
holds a key absent from `params`, the error is raised while rebuilding the
weight-decayed gradients, before `self.m`/`self.v` are touched, and the whole
state is unchanged.  If instead every key of `g` is known but `params` holds a
key missing from `g`, the error is raised only in the final comprehension over
`params`, after `self.m` and `self.v` have been replaced by maps keyed only by
`g`'s keys — silently discarding the moment state of parameters absent from `g`
(`i` is still unchanged). -/
theorem adam_update_keyerror (s : AdamState κ) (params g : List (κ × ℝ))
    (hgm : ∀ key ∈ g.map Prod.fst, key ∈ s.m.map Prod.fst)
    (hgv : ∀ key ∈ g.map Prod.fst, key ∈ s.v.map Prod.fst) :
    ((∃ key ∈ g.map Prod.fst, key ∉ params.map Prod.fst) →
      Adam.update s params g = (s, Except.error ())) ∧
    ((∀ key ∈ g.map Prod.fst, key ∈ params.map Prod.fst) →
      (∃ key ∈ params.map Prod.fst, key ∉ g.map Prod.fst) →
      (Adam.update s params g).2 = Except.error () ∧
        (Adam.update s params g).1.m.map Prod.fst = g.map Prod.fst ∧
        (Adam.update s params g).1.v.map Prod.fst = g.map Prod.fst ∧
        (Adam.update s params g).1.i = s.i) := by
  constructor
  · rintro ⟨key, hkg, hkp⟩
    obtain ⟨p, hp, rfl⟩ := List.mem_map.mp hkg
    have hnone : dmap? (fun key gk => (dlookup params key).map fun pk =>
        gk + s.weight_decay * pk) g = none := by
      refine dmap?_none ⟨p, hp, ?_⟩
      have : dlookup params p.1 = none :=
        Option.not_isSome_iff_eq_none.mp fun hsome =>
          hkp ((dlookup_isSome_iff params p.1).mp hsome)
      simp [this]
    simp only [Adam.update, hnone]
  · intro hgp
    rintro ⟨key, hkp, hkg⟩
    obtain ⟨g1, hg1⟩ :=
      dmap?_total (f := fun key gk => (dlookup params key).map fun pk =>
          gk + s.weight_decay * pk) g
        (fun p hp => by
          have hmem := hgp p.1 (List.mem_map_of_mem Prod.fst hp)
          rcases Option.isSome_iff_exists.mp
            ((dlookup_isSome_iff params p.1).mpr hmem) with ⟨x, hx⟩
          simp [hx])
    have hg1keys : g1.map Prod.fst = g.map Prod.fst := dmap?_keys hg1
    obtain ⟨m1, hm1⟩ :=
      dmap?_total (f := fun key gk => (dlookup s.m key).map fun mk =>
          (1 - s.b1) * gk + s.b1 * mk) g1
        (fun p hp => by
          have hmem : p.1 ∈ g.map Prod.fst := by
            rw [← hg1keys]
            exact List.mem_map_of_mem Prod.fst hp
          rcases Option.isSome_iff_exists.mp
            ((dlookup_isSome_iff s.m p.1).mpr (hgm p.1 hmem)) with ⟨x, hx⟩
          simp [hx])
    have hm1keys : m1.map Prod.fst = g1.map Prod.fst := dmap?_keys hm1
    obtain ⟨v1, hv1⟩ :=
      dmap?_total (f := fun key gk => (dlookup s.v key).map fun vk =>
          (1 - s.b2) * gk * gk + s.b2 * vk) g1
        (fun p hp => by
          have hmem : p.1 ∈ g.map Prod.fst := by
            rw [← hg1keys]
            exact List.mem_map_of_mem Prod.fst hp
          rcases Option.isSome_iff_exists.mp
            ((dlookup_isSome_iff s.v p.1).mpr (hgv p.1 hmem)) with ⟨x, hx⟩
          simp [hx])
    have hv1keys : v1.map Prod.fst = g1.map Prod.fst := dmap?_keys hv1
    obtain ⟨mhat, hmhat⟩ :=
      dmap?_total (f := fun key _ => (dlookup m1 key).map fun mk =>
          mk / (1 - s.b1 ^ (s.i + 1))) g1
        (fun p hp => by
          have hmem : p.1 ∈ m1.map Prod.fst := by
            rw [hm1keys]
            exact List.mem_map_of_mem Prod.fst hp
          rcases Option.isSome_iff_exists.mp
            ((dlookup_isSome_iff m1 p.1).mpr hmem) with ⟨x, hx⟩
          simp [hx])
    have hmhatkeys : mhat.map Prod.fst = g1.map Prod.fst := dmap?_keys hmhat
    obtain ⟨vhat, hvhat⟩ :=
      dmap?_total (f := fun key _ => (dlookup v1 key).map fun vk =>
          vk / (1 - s.b2 ^ (s.i + 1))) g1
        (fun p hp => by
          have hmem : p.1 ∈ v1.map Prod.fst := by
            rw [hv1keys]
            exact List.mem_map_of_mem Prod.fst hp
          rcases Option.isSome_iff_exists.mp
            ((dlookup_isSome_iff v1 p.1).mpr hmem) with ⟨x, hx⟩
          simp [hx])
    have hfinal : dmap? (fun key pk => (dlookup mhat key).bind fun mh =>
        (dlookup vhat key).map fun vh =>
          pk - Adam.scheduled_lr s * mh / (Real.sqrt vh + s.eps)) params = none := by
      obtain ⟨p, hp, rfl⟩ := List.mem_map.mp hkp
      refine dmap?_none ⟨p, hp, ?_⟩
      have hm : dlookup mhat p.1 = none :=
        Option.not_isSome_iff_eq_none.mp fun hsome => by
          have := (dlookup_isSome_iff mhat p.1).mp hsome
          rw [hmhatkeys, hg1keys] at this
          exact hkg this
      simp [hm]
    refine ⟨?_, ?_, ?_, ?_⟩ <;>
      simp only [Adam.update, hg1, hm1, hv1, hmhat, hvhat, hfinal] <;>
      simp [hm1keys, hv1keys, hg1keys]

/-- C10 witness for the amended statement: `params = {0: 1.0, 1: 1.0}`,
`g = {0: 2.0}`, moments keyed by `{0, 1}`: the error escapes from the final
comprehension after the moments were rebuilt keyed only by `[0]`. -/
theorem adam_update_keyerror_witness :
    ((∃ key ∈ ([((0 : ℕ), (2 : ℝ))]).map Prod.fst,
        key ∉ ([((0 : ℕ), (1 : ℝ)), (1, 1)]).map Prod.fst) →
      Adam.update (⟨1, 0, 0, 1, 0, none, [(0, 0), (1, 0)], [(0, 0), (1, 0)], 0⟩ :
          AdamState ℕ) [(0, 1), (1, 1)] [(0, 2)] =
        (⟨1, 0, 0, 1, 0, none, [(0, 0), (1, 0)], [(0, 0), (1, 0)], 0⟩, Except.error ())) ∧
    ((∀ key ∈ ([((0 : ℕ), (2 : ℝ))]).map Prod.fst,
        key ∈ ([((0 : ℕ), (1 : ℝ)), (1, 1)]).map Prod.fst) →
      (∃ key ∈ ([((0 : ℕ), (1 : ℝ)), (1, 1)]).map Prod.fst,
        key ∉ ([((0 : ℕ), (2 : ℝ))]).map Prod.fst) →
      (Adam.update (⟨1, 0, 0, 1, 0, none, [(0, 0), (1, 0)], [(0, 0), (1, 0)], 0⟩ :
          AdamState ℕ) [(0, 1), (1, 1)] [(0, 2)]).2 = Except.error () ∧
        (Adam.update (⟨1, 0, 0, 1, 0, none, [(0, 0), (1, 0)], [(0, 0), (1, 0)], 0⟩ :
            AdamState ℕ) [(0, 1), (1, 1)] [(0, 2)]).1.m.map Prod.fst =
          ([((0 : ℕ), (2 : ℝ))]).map Prod.fst ∧
        (Adam.update (⟨1, 0, 0, 1, 0, none, [(0, 0), (1, 0)], [(0, 0), (1, 0)], 0⟩ :
            AdamState ℕ) [(0, 1), (1, 1)] [(0, 2)]).1.v.map Prod.fst =
          ([((0 : ℕ), (2 : ℝ))]).map Prod.fst ∧
        (Adam.update (⟨1, 0, 0, 1, 0, none, [(0, 0), (1, 0)], [(0, 0), (1, 0)], 0⟩ :
            AdamState ℕ) [(0, 1), (1, 1)] [(0, 2)]).1.i =
          (⟨1, 0, 0, 1, 0, none, [(0, 0), (1, 0)], [(0, 0), (1, 0)], 0⟩ :
            AdamState ℕ).i) :=
  adam_update_keyerror
    (⟨1, 0, 0, 1, 0, none, [(0, 0), (1, 0)], [(0, 0), (1, 0)], 0⟩ : AdamState ℕ)
    [(0, 1), (1, 1)] [(0, 2)] (by decide) (by decide)

/-- C4: the source contains no `raise` statement and defines no
`NumericalInstabilityError` anywhere; both functions are straight-line
expressions whose embedding is total, with no error channel.  At `M = [[1]]`,
`D = [-1]` the inner `Nh × Nh` matrix is exactly `[[0]]`: its computed
determinant is `0` (non-positive) and it is singular, yet `MatrixLogDet` still
returns a plain value — `log(D)` and `log(det)` of non-positive arguments,
which float arithmetic turns into `nan`/`-inf`, silently — instead of
signalling `NumericalInstabilityError`. -/
theorem inner_matrix_singular_no_error :
    (1 + (Matrix.of fun _ _ : Fin 1 => (1 : ℝ))ᵀ *
        (Matrix.diagonal fun _ : Fin 1 => ((-1 : ℝ))⁻¹) *
        (Matrix.of fun _ _ : Fin 1 => (1 : ℝ))).det = 0 ∧
      MatrixLogDet (Matrix.of fun _ _ : Fin 1 => (1 : ℝ)) (fun _ => (-1 : ℝ)) =
        Real.log (-1) +
          Real.log (1 + (Matrix.of fun _ _ : Fin 1 => (1 : ℝ))ᵀ *
            (Matrix.diagonal fun _ : Fin 1 => ((-1 : ℝ))⁻¹) *
            (Matrix.of fun _ _ : Fin 1 => (1 : ℝ))).det := by
  constructor
  · simp [Matrix.det_fin_one, Matrix.add_apply, Matrix.mul_apply,
      Matrix.diagonal, Matrix.one_apply, Matrix.transpose_apply,
      Fin.sum_univ_one]
    norm_num
  · rw [MatrixLogDet_def]
    simp [Fin.sum_univ_one]

/-!
## Cost model for `MatrixInverse` / `MatrixLogDet`

Scalar multiply–accumulate count of the dense tensor operations exactly as the
source performs them: `torch.diag(1./D)` materializes a dense `Npix × Npix`
matrix (cost `Npix` for `1./D` plus `Npix²` writes), every `@` is a dense
matmul — `(p×q) @ (q×r)` costs `p·q·r` — evaluated left-to-right as Python
associates it, and `torch.linalg.inv` / `torch.linalg.det` on an `Nh × Nh`
matrix cost `Nh³`.  `np` is `Npix`, `nh` is `Nh`.
-/

/-- Cost of a dense matmul `(p×q) @ (q×r)`. -/
def matmulCost (p q r : ℕ) : ℕ := p * q * r

/-- Cost of `MatrixInverse`, summand by summand:
`1./D`; `torch.diag`; `M.T@diagD`; `(M.T@diagD)@M`; `I + ...`;
`torch.linalg.inv` (the only inversion, on the `Nh × Nh` inner matrix);
`diagD@M`; `(diagD@M)@inv`; `((diagD@M)@inv)@M.T`;
`(((diagD@M)@inv)@M.T)@diagD` — a dense `(Npix×Npix)@(Npix×Npix)` product —
and the final subtraction. -/
def MatrixInverseCost (np nh : ℕ) : ℕ :=
  np + np * np +
    matmulCost nh np np + matmulCost nh np nh + nh * nh + nh * nh * nh +
    matmulCost np np nh + matmulCost np nh nh + matmulCost np nh np +
    matmulCost np np np + np * np

/-- Cost of `MatrixLogDet`, summand by summand: `1./D`; `torch.diag`;
`torch.log(D)`; `torch.sum`; `M.T@diagD`; `(M.T@diagD)@M`; `I + ...`;
`torch.linalg.det` (the only determinant, on the `Nh × Nh` inner matrix);
final `torch.log` and addition. -/
def MatrixLogDetCost (np nh : ℕ) : ℕ :=
  np + np * np + np + np +
    matmulCost nh np np + matmulCost nh np nh + nh * nh + nh * nh * nh + 2

/-- C9 counterexample: the operations as coded are NOT `O(Npix·Nh² + Nh³)`:
no constant `c` bounds both costs by `c·(Npix·Nh² + Nh³ + 1)` — already
`MatrixInverseCost` at `Nh = 0` grows cubically in `Npix` (the final
`(Npix×Npix)@(Npix×Npix)` dense product), while the claimed bound is constant
there. -/
theorem cost_not_low_rank_bound :
    ¬ ∃ c : ℕ, ∀ np nh : ℕ,
        MatrixInverseCost np nh ≤ c * (np * nh * nh + nh * nh * nh + 1) ∧
          MatrixLogDetCost np nh ≤ c * (np * nh * nh + nh * nh * nh + 1) := by
  rintro ⟨c, hc⟩
  have h := (hc (c + 1) 0).1
  simp [MatrixInverseCost, matmulCost] at h
  nlinarith [h]

lemma cube_mix_le (a b : ℕ) : a * a * b ≤ a * a * a + b * b * b := by
  rcases le_total b a with hba | hab
  · exact le_trans (Nat.mul_le_mul (le_refl (a * a)) hba) (Nat.le_add_right _ _)
  · refine le_trans ?_ (Nat.le_add_left _ _)
    exact Nat.mul_le_mul (Nat.mul_le_mul hab hab) (le_refl b)

lemma mix_cube_le (a b : ℕ) : a * b * b ≤ a * a * b + b * b * b := by
  rcases le_total a b with hab | hba
  · refine le_trans ?_ (Nat.le_add_left _ _)
    exact Nat.mul_le_mul (Nat.mul_le_mul hab (le_refl b)) (le_refl b)
  · refine le_trans ?_ (Nat.le_add_right _ _)
    exact Nat.mul_le_mul (Nat.mul_le_mul (le_refl a) hba) (le_refl b)

lemma sq_le_cube_succ (a : ℕ) : a * a ≤ a * a * a + 1 := by
  rcases Nat.eq_zero_or_pos a with rfl | ha
  · simp
  · have h1 : a * a * 1 ≤ a * a * a := Nat.mul_le_mul (le_refl (a * a)) ha
    rw [mul_one] at h1
    exact le_trans h1 (Nat.le_add_right _ _)

/-- C9 amended: the only inversion/determinant is indeed on the `Nh × Nh` inner
matrix (see `MatrixInverseCost` / `MatrixLogDetCost`: the cubic
`torch.linalg.inv`/`det` summand is `Nh³`, never `Npix³`), but the dense
products surrounding it as coded are not `O(Npix·Nh² + Nh³)`:
`MatrixLogDetCost` is `Θ(Npix²·(Nh+1) + Nh³)` — forming `M.T@diagD` against the
materialized dense diagonal costs `Nh·Npix²` — and `MatrixInverseCost` is
`Θ(Npix³ + Nh³)` because of the final `(Npix×Npix)@(Npix×Npix)` product. -/
theorem cost_actual_bounds :
    (∀ np nh : ℕ, np * np * np ≤ MatrixInverseCost np nh) ∧
      (∀ np nh : ℕ,
        MatrixInverseCost np nh ≤ 11 * (np * np * np + nh * nh * nh + np + 1)) ∧
      (∀ np nh : ℕ, nh * np * np ≤ MatrixLogDetCost np nh) ∧
      (∀ np nh : ℕ,
        MatrixLogDetCost np nh ≤
          10 * (nh * np * np + np * np + nh * nh * nh + np + 1)) := by
  refine ⟨fun np nh => ?_, fun np nh => ?_, fun np nh => ?_, fun np nh => ?_⟩
  · simp only [MatrixInverseCost, matmulCost]
    nlinarith []
  · simp only [MatrixInverseCost, matmulCost]
    nlinarith [cube_mix_le np nh, mix_cube_le np nh, sq_le_cube_succ np,
      sq_le_cube_succ nh]
  · simp only [MatrixLogDetCost, matmulCost]
    nlinarith []
  · simp only [MatrixLogDetCost, matmulCost]
    nlinarith [mix_cube_le np nh, sq_le_cube_succ nh]

end QFA
